import Mathlib

/-!
Shallow embedding of the `transactions-rs` repository: shadow-overlay
wrappers for transactional mutation.

Source files embedded:
* `src/gen_wrap.rs`    — `GenericWrap` (copy-on-write wrapper for one value);
* `src/hash_wrap.rs`   — `HashWrap` (overlay over a map-like collection,
  with commit/rollback and a destruction policy);
* `src/lending_wrap.rs` — `LendingWrap` (overlay over a lending collection).

Modelling decisions:
* `HashMap K V` / the `HashLike` capability are modelled extensionally as
  association lists `List (K × V)`: `lookup` finds the first matching key,
  `hmInsert` conses after erasing the key, `eraseKey` drops every pair with
  the key.  Per the mapping-capability contract (spec section 6),
  `contains_key` is `(lookup · ·).isSome` and `get` on a contained key
  succeeds, so the Rust `if contains_key { get(k).unwrap() }` idiom is
  rendered as a direct `match` on `lookup`.
* `HashSet K` is a `List K` with Boolean membership `memK`.
* Rust panics (`panic!`, `.unwrap()` on `None`) become `Except` errors.
* Mutation through a `get_mut` handle is modelled as an operation that
  applies a function `f : V → V` at the handle's target.
* `LendingLibrary` (external crate, not under `src/`) is modelled from the
  spec: a store plus the set of keys currently out on loan; `lend` fails on
  an absent or already-lent key; dropping a loan releases the key.
-/

section AssocList

variable {K V : Type} [DecidableEq K]

/-- First-match lookup in an association list; models `HashMap::get`. -/
def lookup : List (K × V) → K → Option V
  | [], _ => none
  | p :: rest, k => if p.1 = k then some p.2 else lookup rest k

/-- Remove every pair with the given key; models `HashMap::remove`'s effect. -/
def eraseKey : List (K × V) → K → List (K × V)
  | [], _ => []
  | p :: rest, k => if p.1 = k then eraseKey rest k else p :: eraseKey rest k

/-- `HashMap::insert`'s effect on the contents: bind `k` to `v`. -/
def hmInsert (m : List (K × V)) (k : K) (v : V) : List (K × V) :=
  (k, v) :: eraseKey m k

/-- `HashMap::contains_key`. -/
def containsKeyL (m : List (K × V)) (k : K) : Bool :=
  (lookup m k).isSome

/-- Boolean membership in a key list; models `HashSet::contains`. -/
def memK : List K → K → Bool
  | [], _ => false
  | a :: rest, k => if a = k then true else memK rest k

/-- `HashSet::insert`'s effect. -/
def insertSet (s : List K) (k : K) : List K :=
  if memK s k then s else k :: s

/-- `HashSet::remove`'s effect. -/
def eraseSet : List K → K → List K
  | [], _ => []
  | a :: rest, k => if a = k then eraseSet rest k else a :: eraseSet rest k

theorem lookup_eraseKey_self (m : List (K × V)) (k : K) :
    lookup (eraseKey m k) k = none := by
  induction m with
  | nil => simp [eraseKey, lookup]
  | cons p rest ih =>
    by_cases h : p.1 = k <;> simp [eraseKey, lookup, h, ih]

theorem lookup_eraseKey_ne (m : List (K × V)) (k k2 : K) (h : k2 ≠ k) :
    lookup (eraseKey m k) k2 = lookup m k2 := by
  induction m with
  | nil => simp [eraseKey]
  | cons p rest ih =>
    by_cases hp : p.1 = k
    · have : ¬ p.1 = k2 := by
        intro hc; exact h (hc ▸ hp)
      simp [eraseKey, lookup, hp, this, ih, Ne.symm h]
    · by_cases hq : p.1 = k2 <;> simp [eraseKey, lookup, hp, hq, ih, h]

theorem lookup_hmInsert_self (m : List (K × V)) (k : K) (v : V) :
    lookup (hmInsert m k v) k = some v := by
  simp [hmInsert, lookup]

theorem lookup_hmInsert_ne (m : List (K × V)) (k k2 : K) (v : V) (h : k2 ≠ k) :
    lookup (hmInsert m k v) k2 = lookup m k2 := by
  have : ¬ k = k2 := fun hc => h hc.symm
  simp [hmInsert, lookup, this, lookup_eraseKey_ne m k k2 h]

theorem memK_insertSet (s : List K) (k k2 : K) :
    memK (insertSet s k) k2 = (k = k2 || memK s k2) := by
  by_cases hm : memK s k
  · by_cases he : k = k2
    · subst he; simp [insertSet, hm]
    · simp [insertSet, hm, he]
  · simp [insertSet, hm, memK]

theorem memK_eraseSet_self (s : List K) (k : K) :
    memK (eraseSet s k) k = false := by
  induction s with
  | nil => simp [eraseSet, memK]
  | cons a rest ih =>
    by_cases h : a = k <;> simp [eraseSet, memK, h, ih]

theorem memK_eraseSet_ne (s : List K) (k k2 : K) (h : k2 ≠ k) :
    memK (eraseSet s k) k2 = memK s k2 := by
  induction s with
  | nil => simp [eraseSet]
  | cons a rest ih =>
    by_cases hp : a = k
    · have : ¬ a = k2 := by intro hc; exact h (hc ▸ hp)
      simp [eraseSet, memK, hp, this, ih, Ne.symm h]
    · by_cases hq : a = k2 <;> simp [eraseSet, memK, hp, hq, ih, h]

/-- The keys of an association list are pairwise distinct. -/
def NodupKeys (m : List (K × V)) : Prop :=
  (m.map Prod.fst).Nodup

omit [DecidableEq K] in
theorem nodupKeys_nil : NodupKeys ([] : List (K × V)) := by
  simp [NodupKeys]

theorem eraseKey_sublist (m : List (K × V)) (k : K) :
    (eraseKey m k).Sublist m := by
  induction m with
  | nil => simp [eraseKey]
  | cons p rest ih =>
    by_cases hp : p.1 = k
    · simp only [eraseKey, hp, if_true]
      exact ih.cons p
    · simp only [eraseKey, hp, if_false]
      exact ih.cons₂ p

theorem nodupKeys_eraseKey (m : List (K × V)) (k : K) (h : NodupKeys m) :
    NodupKeys (eraseKey m k) := by
  exact ((eraseKey_sublist m k).map Prod.fst).nodup h

theorem lookup_eq_some_of_mem_keys (m : List (K × V)) (k : K)
    (h : k ∈ m.map Prod.fst) : (lookup m k).isSome := by
  induction m with
  | nil => simp at h
  | cons p rest ih =>
    by_cases hp : p.1 = k
    · simp [lookup, hp]
    · simp only [List.map_cons, List.mem_cons] at h
      rcases h with h | h
      · exact absurd h.symm hp
      · simpa [lookup, hp] using ih h

theorem nodupKeys_hmInsert (m : List (K × V)) (k : K) (v : V) (h : NodupKeys m) :
    NodupKeys (hmInsert m k v) := by
  simp only [hmInsert, NodupKeys, List.map_cons, List.nodup_cons]
  refine ⟨fun hc => ?_, nodupKeys_eraseKey m k h⟩
  have := lookup_eq_some_of_mem_keys (eraseKey m k) k hc
  rw [lookup_eraseKey_self] at this
  simp at this

end AssocList

section HashWrapModel

variable {K V : Type} [DecidableEq K]

/-- Error kinds of `hash_wrap.rs` (spec section 7): the two fatal panics. -/
inductive WrapError where
  | absentKeyLookup
  | unfinalizedDrop
  deriving DecidableEq, Repr

/-- The three finalize policies of `hash_wrap.rs::commit_behavior`
(`PanicIfUnfinalised` is the spec's `FailIfUnfinalized`). -/
inductive Behavior where
  | panicIfUnfinalised
  | implicitRollback
  | implicitCommit
  deriving DecidableEq, Repr

/-- State of `HashWrap<K, V, T, B>`: the exclusively borrowed underlying map
`inner`, the `added` overlay, the `removed` key set and the `finalised` flag.
The policy `B` is a phantom type parameter in Rust; here it is passed to the
drop function explicitly. -/
structure HashWrap (K V : Type) where
  inner : List (K × V)
  added : List (K × V)
  removed : List K
  finalised : Bool
  deriving Repr

/-- `HashWrap::new`: empty overlay, not finalised. -/
def HashWrap.new (m : List (K × V)) : HashWrap K V :=
  ⟨m, [], [], false⟩

/-- `HashWrap::contains_key`. -/
def HashWrap.containsKey (w : HashWrap K V) (k : K) : Bool :=
  !(memK w.removed k) && (containsKeyL w.added k || containsKeyL w.inner k)

/-- `HashWrap::insert`: returns the displaced value and the new state.
Branches follow the source: added hit, removed hit, underlying hit
(`inner.get(&k).unwrap()` rendered as the `match` on `lookup`), miss. -/
def HashWrap.insert (w : HashWrap K V) (k : K) (v : V) :
    Option V × HashWrap K V :=
  if containsKeyL w.added k then
    (lookup w.added k, { w with added := hmInsert w.added k v })
  else if memK w.removed k then
    (lookup w.added k,
      { w with removed := eraseSet w.removed k, added := hmInsert w.added k v })
  else
    match lookup w.inner k with
    | some ret => (some ret, { w with added := hmInsert w.added k v })
    | none => (none, { w with added := hmInsert w.added k v })

/-- `HashWrap::remove`: returns the popped value and the new state. -/
def HashWrap.remove (w : HashWrap K V) (k : K) : Option V × HashWrap K V :=
  if containsKeyL w.added k then
    (lookup w.added k,
      { w with removed := insertSet w.removed k, added := eraseKey w.added k })
  else if memK w.removed k then
    (none, w)
  else
    match lookup w.inner k with
    | some v => (some v, { w with removed := insertSet w.removed k })
    | none => (none, { w with removed := insertSet w.removed k })

/-- `HashWrap::get_mut`: the copy-on-write promotion into `added` plus the
value the returned handle points at (`none` when no handle is returned). -/
def HashWrap.getMut (w : HashWrap K V) (k : K) : Option V × HashWrap K V :=
  if containsKeyL w.added k then
    (lookup w.added k, w)
  else if memK w.removed k then
    (none, w)
  else
    match lookup w.inner k with
    | some v => (some v, { w with added := hmInsert w.added k v })
    | none => (none, w)

/-- `get_mut` followed by a mutation `f` applied through the returned handle
(the handle points into `added` at key `k`); when no handle is returned the
mutation cannot happen. -/
def HashWrap.getMutApply (w : HashWrap K V) (k : K) (f : V → V) :
    HashWrap K V :=
  match w.getMut k with
  | (some v, w2) => { w2 with added := hmInsert w2.added k (f v) }
  | (none, w2) => w2

/-- `Index::index` on `HashWrap`: both panic sites (`panic!()` on a removed
key and `inner.get(index).unwrap()` on a key absent below) are the spec's
fatal `AbsentKeyLookup`. -/
def HashWrap.indexAt (w : HashWrap K V) (k : K) : Except WrapError V :=
  if containsKeyL w.added k then
    match lookup w.added k with
    | some v => .ok v
    | none => .error .absentKeyLookup
  else if memK w.removed k then
    .error .absentKeyLookup
  else
    match lookup w.inner k with
    | some v => .ok v
    | none => .error .absentKeyLookup

/-- `HashWrap::_commit`: drop each removed key from the underlying map, then
insert every added pair; returns the resulting underlying contents. -/
def HashWrap.commitInner (w : HashWrap K V) : List (K × V) :=
  w.added.foldl (fun m p => hmInsert m p.1 p.2)
    (w.removed.foldl (fun m k => eraseKey m k) w.inner)

/-- `HashWrap::commit` (via `_commit`): flush the overlay and finalise. -/
def HashWrap.commit (w : HashWrap K V) : HashWrap K V :=
  { w with inner := w.commitInner, added := [], finalised := true }

/-- `HashWrap::rollback` (via `_rollback`): only set the flag; the overlay is
dropped with the wrapper and the underlying map is untouched. -/
def HashWrap.rollback (w : HashWrap K V) : HashWrap K V :=
  { w with finalised := true }

/-- `Drop::drop` for `HashWrap` composed with the policy's `SpecDrop` impl:
when unfinalised, `PanicIfUnfinalised` panics, `ImplicitCommit` runs
`_commit`, `ImplicitRollback` runs `_rollback`; when already finalised
nothing happens.  Returns the underlying contents left behind. -/
def HashWrap.dropRun (b : Behavior) (w : HashWrap K V) :
    Except WrapError (List (K × V)) :=
  if w.finalised then
    .ok w.inner
  else
    match b with
    | .panicIfUnfinalised => .error .unfinalizedDrop
    | .implicitCommit => .ok w.commitInner
    | .implicitRollback => .ok w.inner

/-- One caller-visible operation on a `HashWrap` (mutation through a
`get_mut` handle carried as the function applied at the handle). -/
inductive HOp (K V : Type) where
  | ins (k : K) (v : V)
  | rem (k : K)
  | mutate (k : K) (f : V → V)
  | look (k : K)

/-- State effect of one operation (`index` takes `&self`: no state effect). -/
def applyHOp (w : HashWrap K V) : HOp K V → HashWrap K V
  | .ins k v => (w.insert k v).2
  | .rem k => (w.remove k).2
  | .mutate k f => w.getMutApply k f
  | .look _ => w

/-- Run a whole operation sequence through the wrapper. -/
def applyHOps (w : HashWrap K V) (ops : List (HOp K V)) : HashWrap K V :=
  ops.foldl applyHOp w

/-- The same operation applied directly to a bare map, without a wrapper:
`insert`/`remove` are the map's own, `mutate k f` is `get_mut` on the map plus
the mutation through its handle, lookups do not change contents. -/
def applyDirect (m : List (K × V)) : HOp K V → List (K × V)
  | .ins k v => hmInsert m k v
  | .rem k => eraseKey m k
  | .mutate k f =>
    match lookup m k with
    | some v => hmInsert m k (f v)
    | none => m
  | .look _ => m

/-- Run a whole operation sequence directly on a bare map. -/
def applyDirects (m : List (K × V)) (ops : List (HOp K V)) : List (K × V) :=
  ops.foldl applyDirect m

/-- The logical view of the wrapper (spec section 3):
`(underlying − removed) ∪ added`, added taking precedence. -/
def HashWrap.view (w : HashWrap K V) (k : K) : Option V :=
  match lookup w.added k with
  | some v => some v
  | none => if memK w.removed k then none else lookup w.inner k

end HashWrapModel

section HashProofs

variable {K V : Type} [DecidableEq K]

theorem eraseKey_eq_of_not_contains (m : List (K × V)) (k : K)
    (h : containsKeyL m k = false) : eraseKey m k = m := by
  induction m with
  | nil => simp [eraseKey]
  | cons p rest ih =>
    by_cases hp : p.1 = k
    · simp [containsKeyL, lookup, hp] at h
    · simp only [containsKeyL, lookup, hp, if_false] at h
      simp [eraseKey, hp, ih h]

theorem eraseSet_eq_of_not_mem (s : List K) (k : K)
    (h : memK s k = false) : eraseSet s k = s := by
  induction s with
  | nil => simp [eraseSet]
  | cons a rest ih =>
    by_cases hp : a = k
    · simp [memK, hp] at h
    · simp only [memK, hp, if_false] at h
      simp [eraseSet, hp, ih h]

theorem mem_keys_of_lookup (m : List (K × V)) (k : K) (v : V)
    (h : lookup m k = some v) : k ∈ m.map Prod.fst := by
  induction m with
  | nil => simp [lookup] at h
  | cons p rest ih =>
    by_cases hp : p.1 = k
    · simp [hp]
    · simp only [lookup, hp, if_false] at h
      simp [ih h]

theorem lookup_foldl_erase (s : List K) (m : List (K × V)) (k : K) :
    lookup (s.foldl (fun acc k2 => eraseKey acc k2) m) k =
      if memK s k then none else lookup m k := by
  induction s generalizing m with
  | nil => simp [memK]
  | cons a rest ih =>
    simp only [List.foldl_cons]
    rw [ih]
    by_cases ha : a = k
    · subst ha
      simp [memK, lookup_eraseKey_self]
    · simp [memK, ha, lookup_eraseKey_ne m a k (fun hc => ha hc.symm)]

theorem lookup_foldl_insert (l : List (K × V)) (m : List (K × V)) (k : K)
    (h : NodupKeys l) :
    lookup (l.foldl (fun acc p => hmInsert acc p.1 p.2) m) k =
      match lookup l k with
      | some v => some v
      | none => lookup m k := by
  induction l generalizing m with
  | nil => simp [lookup]
  | cons p rest ih =>
    simp only [List.foldl_cons]
    have hn : NodupKeys rest := by
      simp only [NodupKeys, List.map_cons, List.nodup_cons] at h
      exact h.2
    rw [ih _ hn]
    by_cases hp : p.1 = k
    · have hrest : lookup rest k = none := by
        cases hl : lookup rest k with
        | none => rfl
        | some v =>
          exfalso
          simp only [NodupKeys, List.map_cons, List.nodup_cons] at h
          exact h.1 (hp ▸ mem_keys_of_lookup rest k v hl)
      subst hp
      simp [lookup, hrest, lookup_hmInsert_self]
    · rw [lookup_hmInsert_ne m p.1 k p.2 (fun hc => hp hc.symm)]
      simp [lookup, hp]

/-- After `_commit`, looking a key up in the underlying map gives exactly
the wrapper's logical view of that key. -/
theorem commitInner_view (w : HashWrap K V) (k : K) (h : NodupKeys w.added) :
    lookup w.commitInner k = w.view k := by
  unfold HashWrap.commitInner HashWrap.view
  rw [lookup_foldl_insert _ _ _ h, lookup_foldl_erase]

/-- Simulation invariant tying a wrapper over `u` to the bare map `m`
obtained by replaying the same operations directly: the underlying map is
still `u`, the overlay has distinct keys, no key is both added and removed,
the logical view agrees with `m` pointwise, and no finalize happened. -/
def HInv (u : List (K × V)) (w : HashWrap K V) (m : List (K × V)) : Prop :=
  w.inner = u ∧ NodupKeys w.added ∧
    (∀ k, containsKeyL w.added k = true → memK w.removed k = false) ∧
    (∀ k, w.view k = lookup m k) ∧ w.finalised = false

theorem hinv_new (u : List (K × V)) : HInv u (HashWrap.new u) u := by
  refine ⟨rfl, nodupKeys_nil, ?_, ?_, rfl⟩
  · intro k hk
    simp [HashWrap.new, containsKeyL, lookup] at hk
  · intro k
    simp [HashWrap.new, HashWrap.view, lookup, memK]

/-- The simulation only inspects the direct map through `lookup`. -/
theorem hinv_congr (u : List (K × V)) (w : HashWrap K V)
    (m1 m2 : List (K × V)) (h : HInv u w m1)
    (he : ∀ k, lookup m1 k = lookup m2 k) : HInv u w m2 := by
  obtain ⟨hi, hn, hd, hv, hf⟩ := h
  exact ⟨hi, hn, hd, fun k => (hv k).trans (he k), hf⟩

theorem lookup_hmInsert_hmInsert (m : List (K × V)) (k : K) (v1 v2 : V)
    (k2 : K) :
    lookup (hmInsert (hmInsert m k v1) k v2) k2 = lookup (hmInsert m k v2) k2 := by
  by_cases he : k2 = k
  · subst he
    rw [lookup_hmInsert_self, lookup_hmInsert_self]
  · rw [lookup_hmInsert_ne _ _ _ _ he, lookup_hmInsert_ne _ _ _ _ he,
      lookup_hmInsert_ne _ _ _ _ he]

/-- Shape lemma: binding `k → v` in the overlay while clearing `k` from the
removed set simulates a direct `insert`. -/
theorem hinv_addClear (u : List (K × V)) (w : HashWrap K V)
    (m : List (K × V)) (k : K) (v : V) (h : HInv u w m) :
    HInv u { w with added := hmInsert w.added k v,
                    removed := eraseSet w.removed k } (hmInsert m k v) := by
  obtain ⟨hi, hn, hd, hv, hf⟩ := h
  refine ⟨hi, nodupKeys_hmInsert _ _ _ hn, ?_, ?_, hf⟩
  · intro k2 hk2
    by_cases he : k2 = k
    · subst he
      exact memK_eraseSet_self _ _
    · rw [memK_eraseSet_ne _ _ _ he]
      rw [containsKeyL, lookup_hmInsert_ne _ _ _ _ he] at hk2
      exact hd k2 hk2
  · intro k2
    by_cases he : k2 = k
    · subst he
      simp [HashWrap.view, lookup_hmInsert_self]
    · simp only [HashWrap.view, lookup_hmInsert_ne _ _ _ _ he,
        memK_eraseSet_ne _ _ _ he]
      exact hv k2

end HashProofs

section HashProofs2

variable {K V : Type} [DecidableEq K]

/-- Shape lemma: dropping `k` from the overlay while marking it removed
simulates a direct `remove`. -/
theorem hinv_remMove (u : List (K × V)) (w : HashWrap K V)
    (m : List (K × V)) (k : K) (h : HInv u w m) :
    HInv u { w with added := eraseKey w.added k,
                    removed := insertSet w.removed k } (eraseKey m k) := by
  obtain ⟨hi, hn, hd, hv, hf⟩ := h
  refine ⟨hi, nodupKeys_eraseKey _ _ hn, ?_, ?_, hf⟩
  · intro k2 hk2
    by_cases he : k2 = k
    · subst he
      rw [containsKeyL, lookup_eraseKey_self] at hk2
      simp at hk2
    · rw [containsKeyL, lookup_eraseKey_ne _ _ _ he] at hk2
      rw [memK_insertSet]
      simp only [Bool.or_eq_false_iff, decide_eq_false_iff_not]
      exact ⟨fun hc => he hc.symm, hd k2 hk2⟩
  · intro k2
    by_cases he : k2 = k
    · subst he
      simp [HashWrap.view, lookup_eraseKey_self, memK_insertSet]
    · simp only [HashWrap.view, lookup_eraseKey_ne _ _ _ he, memK_insertSet,
        lookup_eraseKey_ne m k k2 he]
      have hne : (decide (k = k2)) = false := by
        simp only [decide_eq_false_iff_not]
        exact fun hc => he hc.symm
      rw [hne]
      simp only [Bool.false_or]
      exact hv k2

/-- Shape lemma: removing an already-removed key changes nothing in the
wrapper and nothing visible in the direct map. -/
theorem hinv_remNoop (u : List (K × V)) (w : HashWrap K V)
    (m : List (K × V)) (k : K) (h : HInv u w m)
    (hca : containsKeyL w.added k = false) (hcr : memK w.removed k = true) :
    HInv u w (eraseKey m k) := by
  refine hinv_congr u w m _ h ?_
  intro k2
  by_cases he : k2 = k
  · subst he
    have hla : lookup w.added k2 = none := by
      rw [containsKeyL] at hca
      exact Option.not_isSome_iff_eq_none.mp (by simp [hca])
    have hvk := h.2.2.2.1 k2
    rw [HashWrap.view, hla] at hvk
    simp only [hcr, if_true] at hvk
    rw [← hvk, lookup_eraseKey_self]
  · exact (lookup_eraseKey_ne m k k2 he).symm

/-- One operation through the wrapper simulates the same operation applied
directly: the simulation invariant is preserved. -/
theorem hstep (u : List (K × V)) (w : HashWrap K V) (m : List (K × V))
    (op : HOp K V) (h : HInv u w m) :
    HInv u (applyHOp w op) (applyDirect m op) := by
  cases op with
  | ins k v =>
    simp only [applyHOp, applyDirect]
    cases hca : containsKeyL w.added k with
    | true =>
      have hr : memK w.removed k = false := h.2.2.1 k hca
      have hst : (w.insert k v).2 =
          { w with added := hmInsert w.added k v,
                   removed := eraseSet w.removed k } := by
        simp [HashWrap.insert, hca, eraseSet_eq_of_not_mem _ _ hr]
      rw [hst]
      exact hinv_addClear u w m k v h
    | false =>
      cases hcr : memK w.removed k with
      | true =>
        have hst : (w.insert k v).2 =
            { w with added := hmInsert w.added k v,
                     removed := eraseSet w.removed k } := by
          simp [HashWrap.insert, hca, hcr]
        rw [hst]
        exact hinv_addClear u w m k v h
      | false =>
        have hst : (w.insert k v).2 =
            { w with added := hmInsert w.added k v,
                     removed := eraseSet w.removed k } := by
          cases hli : lookup w.inner k <;>
            simp [HashWrap.insert, hca, hcr, hli,
              eraseSet_eq_of_not_mem _ _ hcr]
        rw [hst]
        exact hinv_addClear u w m k v h
  | rem k =>
    simp only [applyHOp, applyDirect]
    cases hca : containsKeyL w.added k with
    | true =>
      have hst : (w.remove k).2 =
          { w with added := eraseKey w.added k,
                   removed := insertSet w.removed k } := by
        simp [HashWrap.remove, hca]
      rw [hst]
      exact hinv_remMove u w m k h
    | false =>
      cases hcr : memK w.removed k with
      | true =>
        have hst : (w.remove k).2 = w := by
          simp [HashWrap.remove, hca, hcr]
        rw [hst]
        exact hinv_remNoop u w m k h hca hcr
      | false =>
        have hst : (w.remove k).2 =
            { w with added := eraseKey w.added k,
                     removed := insertSet w.removed k } := by
          cases hli : lookup w.inner k <;>
            simp [HashWrap.remove, hca, hcr, hli,
              eraseKey_eq_of_not_contains _ _ hca]
        rw [hst]
        exact hinv_remMove u w m k h
  | mutate k f =>
    simp only [applyHOp, applyDirect]
    cases hca : containsKeyL w.added k with
    | true =>
      obtain ⟨v0, hv0⟩ := Option.isSome_iff_exists.mp (by
        rw [containsKeyL] at hca
        exact hca)
      have hlm : lookup m k = some v0 := by
        have hvk := h.2.2.2.1 k
        rw [HashWrap.view, hv0] at hvk
        exact hvk.symm
      have hr : memK w.removed k = false := h.2.2.1 k hca
      have hst : w.getMutApply k f =
          { w with added := hmInsert w.added k (f v0),
                   removed := eraseSet w.removed k } := by
        simp [HashWrap.getMutApply, HashWrap.getMut, hca, hv0,
          eraseSet_eq_of_not_mem _ _ hr]
      rw [hst]
      simp only [hlm]
      exact hinv_addClear u w m k (f v0) h
    | false =>
      have hla : lookup w.added k = none := by
        rw [containsKeyL] at hca
        exact Option.not_isSome_iff_eq_none.mp (by simp [hca])
      cases hcr : memK w.removed k with
      | true =>
        have hlm : lookup m k = none := by
          have hvk := h.2.2.2.1 k
          rw [HashWrap.view, hla] at hvk
          simp only [hcr, if_true] at hvk
          exact hvk.symm
        have hst : w.getMutApply k f = w := by
          simp [HashWrap.getMutApply, HashWrap.getMut, hca, hcr]
        rw [hst]
        simp only [hlm]
        exact h
      | false =>
        cases hli : lookup w.inner k with
        | none =>
          have hlm : lookup m k = none := by
            have hvk := h.2.2.2.1 k
            rw [HashWrap.view, hla] at hvk
            simp only [hcr, if_false, Bool.false_eq_true, hli] at hvk
            exact hvk.symm
          have hst : w.getMutApply k f = w := by
            simp [HashWrap.getMutApply, HashWrap.getMut, hca, hcr, hli]
          rw [hst]
          simp only [hlm]
          exact h
        | some v0 =>
          have hlm : lookup m k = some v0 := by
            have hvk := h.2.2.2.1 k
            rw [HashWrap.view, hla] at hvk
            simp only [hcr, if_false, Bool.false_eq_true, hli] at hvk
            exact hvk.symm
          have h1 : HInv u { w with added := hmInsert w.added k v0 }
              (hmInsert m k v0) := by
            have := hinv_addClear u w m k v0 h
            rwa [eraseSet_eq_of_not_mem _ _ hcr] at this
          have h2 := hinv_addClear u _ _ k (f v0) h1
          rw [eraseSet_eq_of_not_mem _ _ hcr] at h2
          have h3 := hinv_congr u _ _ (hmInsert m k (f v0)) h2
            (fun k2 => lookup_hmInsert_hmInsert m k v0 (f v0) k2)
          have hst : w.getMutApply k f =
              { w with added := hmInsert (hmInsert w.added k v0) k (f v0) } := by
            simp [HashWrap.getMutApply, HashWrap.getMut, hca, hcr, hli]
          rw [hst]
          simp only [hlm]
          exact h3
  | look k =>
    simp only [applyHOp, applyDirect]
    exact h

/-- The simulation invariant is preserved along any operation sequence. -/
theorem hsteps (u : List (K × V)) (ops : List (HOp K V)) (w : HashWrap K V)
    (m : List (K × V)) (h : HInv u w m) :
    HInv u (applyHOps w ops) (applyDirects m ops) := by
  induction ops generalizing w m with
  | nil => exact h
  | cons op rest ih =>
    simp only [applyHOps, applyDirects, List.foldl_cons]
    exact ih _ _ (hstep u w m op h)

/-- Every state reachable from a fresh wrapper over `u` by replaying `ops`
is in simulation with the map obtained by applying `ops` directly to `u`. -/
theorem hreach (u : List (K × V)) (ops : List (HOp K V)) :
    HInv u (applyHOps (HashWrap.new u) ops) (applyDirects u ops) :=
  hsteps u ops _ u (hinv_new u)

end HashProofs2

section LendingModel

variable {K V : Type} [DecidableEq K]

/-- Modelled from the spec: `LendingLibrary<K, V>` (external `lending_library`
crate, not under `src/`): a lending-collection capability — a key-value store
that can additionally check values out via tracked loan handles, refusing a
loan for a key already out (spec section 6).  `store` is the contents,
`onLoan` the keys currently checked out. -/
structure LendingLib (K V : Type) where
  store : List (K × V)
  onLoan : List K
  deriving Repr

/-- Modelled from the spec: `LendingLibrary::new`, the empty collection. -/
def LendingLib.new : LendingLib K V :=
  ⟨[], []⟩

/-- Modelled from the spec: `contains_key` of the mapping capability. -/
def LendingLib.containsKey (l : LendingLib K V) (k : K) : Bool :=
  containsKeyL l.store k

/-- Modelled from the spec: `lend(k)` returns a loan handle iff `k` is
present and not already out on loan; the handle is rendered as the loaned
value paired with the library with `k` marked out. -/
def LendingLib.lend (l : LendingLib K V) (k : K) :
    Option (V × LendingLib K V) :=
  match lookup l.store k with
  | some v =>
    if memK l.onLoan k then none
    else some (v, { l with onLoan := insertSet l.onLoan k })
  | none => none

/-- Modelled from the spec: dropping a `Loan` handle checks the key back in. -/
def LendingLib.endLoan (l : LendingLib K V) (k : K) : LendingLib K V :=
  { l with onLoan := eraseSet l.onLoan k }

/-- Modelled from the spec: `insert` of the mapping capability (binds `k→v`,
returns the previous value). -/
def LendingLib.insertL (l : LendingLib K V) (k : K) (v : V) :
    Option V × LendingLib K V :=
  (lookup l.store k, { l with store := hmInsert l.store k v })

/-- Modelled from the spec: `remove` deletes the key and reports whether it
was present (the Boolean shape `lending_wrap.rs` relies on). -/
def LendingLib.removeB (l : LendingLib K V) (k : K) :
    Bool × LendingLib K V :=
  (containsKeyL l.store k, { l with store := eraseKey l.store k })

/-- Modelled from the spec: `extend` drains another collection's entries
into this one (used by `LendingWrap::commit`). -/
def LendingLib.extend (l : LendingLib K V) (other : LendingLib K V) :
    LendingLib K V :=
  { l with store := other.store.foldl (fun m p => hmInsert m p.1 p.2) l.store }

/-- Failure of the `.unwrap()` applied to `inner.lend(&k)` inside
`LendingWrap::insert` / `LendingWrap::lend`. -/
inductive LPanic where
  | unwrapFailed
  deriving DecidableEq, Repr

/-- State of `LendingWrap<K, V>` (`lending_wrap.rs`): exclusively borrowed
underlying library, `added` overlay library, `removed` key set. -/
structure LendingWrap (K V : Type) where
  inner : LendingLib K V
  added : LendingLib K V
  removed : List K
  deriving Repr

/-- `LendingWrap::new`. -/
def LendingWrap.new (lib : LendingLib K V) : LendingWrap K V :=
  ⟨lib, LendingLib.new, []⟩

/-- `LendingWrap::contains_key`. -/
def LendingWrap.containsKey (w : LendingWrap K V) (k : K) : Bool :=
  !(memK w.removed k) && (containsKeyL w.added.store k ||
    containsKeyL w.inner.store k)

/-- `LendingWrap::insert`.  In the underlying-hit branch the source lends
`k` out of `inner`, clones the loaned value as the return, inserts into
`added`, and drops the momentary loan at the end of the branch (`endLoan`);
the `.unwrap()` on that lend is the error case. -/
def LendingWrap.insert (w : LendingWrap K V) (k : K) (v : V) :
    Except LPanic (Option V × LendingWrap K V) :=
  if containsKeyL w.added.store k then
    let r := w.added.insertL k v
    .ok (r.1, { w with added := r.2 })
  else if memK w.removed k then
    let r := w.added.insertL k v
    .ok (r.1, { w with removed := eraseSet w.removed k, added := r.2 })
  else if containsKeyL w.inner.store k then
    match w.inner.lend k with
    | some (item, inner1) =>
      let r := w.added.insertL k v
      .ok (some item,
        { inner := inner1.endLoan k, added := r.2, removed := w.removed })
    | none => .error .unwrapFailed
  else
    let r := w.added.insertL k v
    .ok (none, { w with added := r.2 })

/-- `LendingWrap::remove`: reports whether the key was logically present. -/
def LendingWrap.remove (w : LendingWrap K V) (k : K) :
    Bool × LendingWrap K V :=
  if containsKeyL w.added.store k then
    let r := w.added.removeB k
    (r.1, { w with removed := insertSet w.removed k, added := r.2 })
  else if memK w.removed k then
    (false, w)
  else
    (containsKeyL w.inner.store k,
      { w with removed := insertSet w.removed k })

/-- `LendingWrap::lend`.  The loan handle handed to the caller is rendered
as the loaned value with the loan already checked back in (its only effect
is `added`'s bookkeeping and it is dropped before the next operation); the
momentary loan taken on `inner` in the promote branch ends with the branch. -/
def LendingWrap.lend (w : LendingWrap K V) (k : K) :
    Except LPanic (Option V × LendingWrap K V) :=
  if containsKeyL w.added.store k then
    match w.added.lend k with
    | some (v, a1) => .ok (some v, { w with added := a1.endLoan k })
    | none => .ok (none, w)
  else if memK w.removed k then
    .ok (none, w)
  else if containsKeyL w.inner.store k then
    match w.inner.lend k with
    | some (item, inner1) =>
      let r := w.added.insertL k item
      match r.2.lend k with
      | some (v, a2) =>
        .ok (some v,
          { inner := inner1.endLoan k, added := a2.endLoan k,
            removed := w.removed })
      | none =>
        .ok (none,
          { inner := inner1.endLoan k, added := r.2, removed := w.removed })
    | none => .error .unwrapFailed
  else
    .ok (none, w)

/-- `LendingWrap::commit`: remove every removed key from the underlying
library, then drain the overlay into it. -/
def LendingWrap.commit (w : LendingWrap K V) : LendingLib K V :=
  (w.removed.foldl (fun l k => (l.removeB k).2) w.inner).extend w.added

/-- `LendingWrap::rollback`: a no-op that consumes the wrapper; the
underlying library is handed back untouched. -/
def LendingWrap.rollback (w : LendingWrap K V) : LendingLib K V :=
  w.inner

/-- One caller-visible operation on a `LendingWrap`. -/
inductive LOp (K V : Type) where
  | ins (k : K) (v : V)
  | rem (k : K)
  | lend (k : K)
  | contains (k : K)

/-- State effect of one operation; a panicking operation does not complete
and is rendered as leaving the state unchanged. -/
def applyLOp (w : LendingWrap K V) : LOp K V → LendingWrap K V
  | .ins k v =>
    match w.insert k v with
    | .ok r => r.2
    | .error _ => w
  | .rem k => (w.remove k).2
  | .lend k =>
    match w.lend k with
    | .ok r => r.2
    | .error _ => w
  | .contains _ => w

/-- Run a whole operation sequence through the lending wrapper. -/
def applyLOps (w : LendingWrap K V) (ops : List (LOp K V)) : LendingWrap K V :=
  ops.foldl applyLOp w

/-- Wrapper states arising in use: no loan is outstanding on either library
between operations, and no key is both added and removed. -/
def LInv (w : LendingWrap K V) : Prop :=
  w.inner.onLoan = [] ∧ w.added.onLoan = [] ∧
    (∀ k, containsKeyL w.added.store k = true → memK w.removed k = false)

/-- Whether an `Except` result is a success. -/
def exceptOk {E A : Type} : Except E A → Bool
  | .ok _ => true
  | .error _ => false

end LendingModel

section LendingProofs

variable {K V : Type} [DecidableEq K]

theorem lend_noLoan (l : LendingLib K V) (k : K) (v : V)
    (hl : l.onLoan = []) (hk : lookup l.store k = some v) :
    l.lend k = some (v, ⟨l.store, [k]⟩) := by
  simp [LendingLib.lend, hk, hl, memK, insertSet]

theorem endLoan_pair (s : List (K × V)) (k : K) :
    (⟨s, [k]⟩ : LendingLib K V).endLoan k = ⟨s, []⟩ := by
  simp [LendingLib.endLoan, eraseSet]

omit [DecidableEq K] in
theorem lib_eta (l : LendingLib K V) (hl : l.onLoan = []) :
    (⟨l.store, []⟩ : LendingLib K V) = l := by
  cases l with
  | mk s o =>
    simp only at hl
    simp [hl]

theorem lookup_none_of_not_contains (m : List (K × V)) (k : K)
    (h : containsKeyL m k = false) : lookup m k = none := by
  rw [containsKeyL] at h
  exact Option.not_isSome_iff_eq_none.mp (by simp [h])

theorem lInsert_eq_added (w : LendingWrap K V) (k : K) (v : V)
    (hca : containsKeyL w.added.store k = true) :
    w.insert k v = .ok (lookup w.added.store k,
      { w with added := ⟨hmInsert w.added.store k v, w.added.onLoan⟩ }) := by
  simp [LendingWrap.insert, hca, LendingLib.insertL]

theorem lInsert_eq_removed (w : LendingWrap K V) (k : K) (v : V)
    (hca : containsKeyL w.added.store k = false)
    (hcr : memK w.removed k = true) :
    w.insert k v = .ok (lookup w.added.store k,
      { w with removed := eraseSet w.removed k,
               added := ⟨hmInsert w.added.store k v, w.added.onLoan⟩ }) := by
  simp [LendingWrap.insert, hca, hcr, LendingLib.insertL]

theorem lInsert_eq_promote (w : LendingWrap K V) (k : K) (v v0 : V)
    (hca : containsKeyL w.added.store k = false)
    (hcr : memK w.removed k = false)
    (hi : w.inner.onLoan = [])
    (hk : lookup w.inner.store k = some v0) :
    w.insert k v = .ok (some v0,
      { inner := w.inner,
        added := ⟨hmInsert w.added.store k v, w.added.onLoan⟩,
        removed := w.removed }) := by
  have hcin : containsKeyL w.inner.store k = true := by
    simp [containsKeyL, hk]
  simp [LendingWrap.insert, hca, hcr, hcin, LendingLib.insertL,
    lend_noLoan w.inner k v0 hi hk, endLoan_pair, lib_eta w.inner hi]

theorem lInsert_eq_absent (w : LendingWrap K V) (k : K) (v : V)
    (hca : containsKeyL w.added.store k = false)
    (hcr : memK w.removed k = false)
    (hk : lookup w.inner.store k = none) :
    w.insert k v = .ok (none,
      { w with added := ⟨hmInsert w.added.store k v, w.added.onLoan⟩ }) := by
  have hcin : containsKeyL w.inner.store k = false := by
    simp [containsKeyL, hk]
  simp [LendingWrap.insert, hca, hcr, hcin, LendingLib.insertL]

theorem lRemove_eq_added (w : LendingWrap K V) (k : K)
    (hca : containsKeyL w.added.store k = true) :
    w.remove k = (containsKeyL w.added.store k,
      { w with removed := insertSet w.removed k,
               added := ⟨eraseKey w.added.store k, w.added.onLoan⟩ }) := by
  simp [LendingWrap.remove, hca, LendingLib.removeB]

theorem lRemove_eq_removed (w : LendingWrap K V) (k : K)
    (hca : containsKeyL w.added.store k = false)
    (hcr : memK w.removed k = true) :
    w.remove k = (false, w) := by
  simp [LendingWrap.remove, hca, hcr]

theorem lRemove_eq_below (w : LendingWrap K V) (k : K)
    (hca : containsKeyL w.added.store k = false)
    (hcr : memK w.removed k = false) :
    w.remove k = (containsKeyL w.inner.store k,
      { w with removed := insertSet w.removed k }) := by
  simp [LendingWrap.remove, hca, hcr]

theorem lLend_eq_added (w : LendingWrap K V) (k : K) (v0 : V)
    (ha : w.added.onLoan = [])
    (hk : lookup w.added.store k = some v0) :
    w.lend k = .ok (some v0, w) := by
  have hca : containsKeyL w.added.store k = true := by
    simp [containsKeyL, hk]
  simp [LendingWrap.lend, hca, lend_noLoan w.added k v0 ha hk,
    endLoan_pair, lib_eta w.added ha]

theorem lLend_eq_removed (w : LendingWrap K V) (k : K)
    (hca : containsKeyL w.added.store k = false)
    (hcr : memK w.removed k = true) :
    w.lend k = .ok (none, w) := by
  simp [LendingWrap.lend, hca, hcr]

theorem lLend_eq_promote (w : LendingWrap K V) (k : K) (v0 : V)
    (hca : containsKeyL w.added.store k = false)
    (hcr : memK w.removed k = false)
    (hi : w.inner.onLoan = [])
    (ha : w.added.onLoan = [])
    (hk : lookup w.inner.store k = some v0) :
    w.lend k = .ok (some v0,
      { inner := w.inner,
        added := ⟨hmInsert w.added.store k v0, []⟩,
        removed := w.removed }) := by
  have h1 : lookup (hmInsert w.added.store k v0) k = some v0 :=
    lookup_hmInsert_self _ _ _
  have h2 : (⟨hmInsert w.added.store k v0, w.added.onLoan⟩ :
      LendingLib K V).lend k = some (v0, ⟨hmInsert w.added.store k v0, [k]⟩) :=
    lend_noLoan _ k v0 (by simpa using ha) (by simpa using h1)
  have hcin : containsKeyL w.inner.store k = true := by
    simp [containsKeyL, hk]
  simp [LendingWrap.lend, hca, hcr, hcin, lend_noLoan w.inner k v0 hi hk,
    LendingLib.insertL, h2, endLoan_pair, lib_eta w.inner hi]

theorem lLend_eq_absent (w : LendingWrap K V) (k : K)
    (hca : containsKeyL w.added.store k = false)
    (hcr : memK w.removed k = false)
    (hk : lookup w.inner.store k = none) :
    w.lend k = .ok (none, w) := by
  have hcin : containsKeyL w.inner.store k = false := by
    simp [containsKeyL, hk]
  simp [LendingWrap.lend, hca, hcr, hcin]

end LendingProofs

section LendingProofs2

variable {K V : Type} [DecidableEq K]

/-- `LendingWrap::insert` under the between-operations invariant: the
internal unwrap cannot fire, and the invariant is preserved. -/
theorem lInsert_props (w : LendingWrap K V) (k : K) (v : V) (h : LInv w) :
    exceptOk (w.insert k v) = true ∧ LInv (applyLOp w (.ins k v)) := by
  obtain ⟨hi, ha, hd⟩ := h
  cases hca : containsKeyL w.added.store k with
  | true =>
    have he := lInsert_eq_added w k v hca
    refine ⟨by simp [he, exceptOk], ?_⟩
    simp only [applyLOp, he]
    refine ⟨hi, ha, ?_⟩
    intro k2 hk2
    by_cases he2 : k2 = k
    · subst he2
      exact hd k2 hca
    · rw [containsKeyL, lookup_hmInsert_ne _ _ _ _ he2] at hk2
      exact hd k2 hk2
  | false =>
    cases hcr : memK w.removed k with
    | true =>
      have he := lInsert_eq_removed w k v hca hcr
      refine ⟨by simp [he, exceptOk], ?_⟩
      simp only [applyLOp, he]
      refine ⟨hi, ha, ?_⟩
      intro k2 hk2
      by_cases he2 : k2 = k
      · subst he2
        exact memK_eraseSet_self _ _
      · rw [memK_eraseSet_ne _ _ _ he2]
        rw [containsKeyL, lookup_hmInsert_ne _ _ _ _ he2] at hk2
        exact hd k2 hk2
    | false =>
      cases hli : lookup w.inner.store k with
      | some v0 =>
        have he := lInsert_eq_promote w k v v0 hca hcr hi hli
        refine ⟨by simp [he, exceptOk], ?_⟩
        simp only [applyLOp, he]
        refine ⟨hi, ha, ?_⟩
        intro k2 hk2
        by_cases he2 : k2 = k
        · subst he2
          exact hcr
        · rw [containsKeyL, lookup_hmInsert_ne _ _ _ _ he2] at hk2
          exact hd k2 hk2
      | none =>
        have he := lInsert_eq_absent w k v hca hcr hli
        refine ⟨by simp [he, exceptOk], ?_⟩
        simp only [applyLOp, he]
        refine ⟨hi, ha, ?_⟩
        intro k2 hk2
        by_cases he2 : k2 = k
        · subst he2
          exact hcr
        · rw [containsKeyL, lookup_hmInsert_ne _ _ _ _ he2] at hk2
          exact hd k2 hk2

/-- `LendingWrap::remove` preserves the between-operations invariant. -/
theorem lRemove_props (w : LendingWrap K V) (k : K) (h : LInv w) :
    LInv (applyLOp w (.rem k)) := by
  obtain ⟨hi, ha, hd⟩ := h
  cases hca : containsKeyL w.added.store k with
  | true =>
    have he := lRemove_eq_added w k hca
    simp only [applyLOp, he]
    refine ⟨hi, ha, ?_⟩
    intro k2 hk2
    by_cases he2 : k2 = k
    · subst he2
      rw [containsKeyL, lookup_eraseKey_self] at hk2
      simp at hk2
    · rw [containsKeyL, lookup_eraseKey_ne _ _ _ he2] at hk2
      rw [memK_insertSet]
      simp only [Bool.or_eq_false_iff, decide_eq_false_iff_not]
      exact ⟨fun hc => he2 hc.symm, hd k2 hk2⟩
  | false =>
    cases hcr : memK w.removed k with
    | true =>
      have he := lRemove_eq_removed w k hca hcr
      simp only [applyLOp, he]
      exact ⟨hi, ha, hd⟩
    | false =>
      have he := lRemove_eq_below w k hca hcr
      simp only [applyLOp, he]
      refine ⟨hi, ha, ?_⟩
      intro k2 hk2
      by_cases he2 : k2 = k
      · subst he2
        simp [hca] at hk2
      · rw [memK_insertSet]
        simp only [Bool.or_eq_false_iff, decide_eq_false_iff_not]
        exact ⟨fun hc => he2 hc.symm, hd k2 hk2⟩

/-- `LendingWrap::lend` under the between-operations invariant: the internal
unwrap cannot fire, and the invariant is preserved. -/
theorem lLend_props (w : LendingWrap K V) (k : K) (h : LInv w) :
    exceptOk (w.lend k) = true ∧ LInv (applyLOp w (.lend k)) := by
  obtain ⟨hi, ha, hd⟩ := h
  cases hca : containsKeyL w.added.store k with
  | true =>
    obtain ⟨v0, hv0⟩ := Option.isSome_iff_exists.mp (by
      rw [containsKeyL] at hca
      exact hca)
    have he := lLend_eq_added w k v0 ha hv0
    refine ⟨by simp [he, exceptOk], ?_⟩
    simp only [applyLOp, he]
    exact ⟨hi, ha, hd⟩
  | false =>
    cases hcr : memK w.removed k with
    | true =>
      have he := lLend_eq_removed w k hca hcr
      refine ⟨by simp [he, exceptOk], ?_⟩
      simp only [applyLOp, he]
      exact ⟨hi, ha, hd⟩
    | false =>
      cases hli : lookup w.inner.store k with
      | some v0 =>
        have he := lLend_eq_promote w k v0 hca hcr hi ha hli
        refine ⟨by simp [he, exceptOk], ?_⟩
        simp only [applyLOp, he]
        refine ⟨hi, rfl, ?_⟩
        intro k2 hk2
        by_cases he2 : k2 = k
        · subst he2
          exact hcr
        · rw [containsKeyL, lookup_hmInsert_ne _ _ _ _ he2] at hk2
          exact hd k2 hk2
      | none =>
        have he := lLend_eq_absent w k hca hcr hli
        refine ⟨by simp [he, exceptOk], ?_⟩
        simp only [applyLOp, he]
        exact ⟨hi, ha, hd⟩

/-- A fresh wrapper over a quiescent library satisfies the invariant. -/
theorem linv_new (lib : LendingLib K V) (h : lib.onLoan = []) :
    LInv (LendingWrap.new lib) := by
  refine ⟨h, rfl, ?_⟩
  intro k hk
  simp [LendingWrap.new, LendingLib.new, containsKeyL, lookup] at hk

/-- Every operation preserves the between-operations invariant. -/
theorem lstep (w : LendingWrap K V) (op : LOp K V) (h : LInv w) :
    LInv (applyLOp w op) := by
  cases op with
  | ins k v => exact (lInsert_props w k v h).2
  | rem k => exact lRemove_props w k h
  | lend k => exact (lLend_props w k h).2
  | contains k => exact h

/-- The invariant holds along any operation sequence. -/
theorem lsteps (ops : List (LOp K V)) (w : LendingWrap K V) (h : LInv w) :
    LInv (applyLOps w ops) := by
  induction ops generalizing w with
  | nil => exact h
  | cons op rest ih =>
    simp only [applyLOps, List.foldl_cons]
    exact ih _ (lstep w op h)

/-- Every state reachable from a fresh wrapper over a quiescent library
satisfies the invariant. -/
theorem lreach (lib : LendingLib K V) (ops : List (LOp K V))
    (h : lib.onLoan = []) : LInv (applyLOps (LendingWrap.new lib) ops) :=
  lsteps ops _ (linv_new lib h)

end LendingProofs2

section GenWrapModel

/-- State of `GenericWrap<T>` (`gen_wrap.rs`): the exclusively borrowed
original value and the optional shadow copy. -/
structure GenericWrap (T : Type) where
  inner : T
  copy : Option T
  deriving Repr

/-- `GenericWrap::new`: no copy yet. -/
def GenericWrap.new {T : Type} (v : T) : GenericWrap T :=
  ⟨v, none⟩

/-- `Deref::deref`: the shadow copy if present, else the original. -/
def GenericWrap.read {T : Type} (w : GenericWrap T) : T :=
  match w.copy with
  | some v => v
  | none => w.inner

/-- `DerefMut::deref_mut`'s state effect: clone the original into the shadow
slot when none exists (the only copy trigger); reuse an existing shadow. -/
def GenericWrap.derefMut {T : Type} (w : GenericWrap T) : GenericWrap T :=
  match w.copy with
  | some _ => w
  | none => { w with copy := some w.inner }

/-- `deref_mut` plus a mutation applied through the returned handle (the
handle points at the shadow slot). -/
def GenericWrap.mutateWith {T : Type} (w : GenericWrap T) (f : T → T) :
    GenericWrap T :=
  let w2 := w.derefMut
  { w2 with copy := w2.copy.map f }

/-- `GenericWrap::replace`: consumes the wrapper; with a shadow, swap it
into the original's storage and return the prior original; without one,
return nothing.  Rendered as (returned value, value left in storage). -/
def GenericWrap.replace {T : Type} (w : GenericWrap T) : Option T × T :=
  match w.copy with
  | some v => (some w.inner, v)
  | none => (none, w.inner)

/-- `GenericWrap::discard`: consumes the wrapper; returns the shadow copy
if any; the original is never touched. -/
def GenericWrap.discard {T : Type} (w : GenericWrap T) : Option T × T :=
  (w.copy, w.inner)

end GenWrapModel

section ClaimsHash

/-- C1: for every initial underlying map `u` and every finite sequence of
insert, remove and get_mut operations (mutations made through the handles
get_mut returns included; read-only lookups allowed), running the sequence
through a fresh `HashWrap` over `u` and then committing leaves the
underlying map with exactly the same key-value contents as applying the
identical sequence directly to `u` without a wrapper. -/
theorem commit_refines_direct {K V : Type} [DecidableEq K]
    (u : List (K × V)) (ops : List (HOp K V)) (k : K) :
    lookup ((applyHOps (HashWrap.new u) ops).commit).inner k =
      lookup (applyDirects u ops) k := by
  have h := hreach u ops
  show lookup (applyHOps (HashWrap.new u) ops).commitInner k = _
  rw [commitInner_view _ _ h.2.1]
  exact h.2.2.2.1 k

/-- C2: whatever sequence of insert/remove/get_mut/lookup operations is
issued on a fresh `HashWrap` over `u`, the underlying map is exactly the
original `u` after an explicit rollback, and likewise when the unfinalized
wrapper is destroyed under the ImplicitRollback policy. -/
theorem rollback_frame {K V : Type} [DecidableEq K]
    (u : List (K × V)) (ops : List (HOp K V)) :
    ((applyHOps (HashWrap.new u) ops).rollback).inner = u ∧
      HashWrap.dropRun .implicitRollback (applyHOps (HashWrap.new u) ops) =
        .ok u := by
  have h := hreach u ops
  refine ⟨h.1, ?_⟩
  simp [HashWrap.dropRun, h.2.2.2.2, h.1]

/-- C3: destruction of a `HashWrap`.  Unfinalized, `PanicIfUnfinalised`
(the spec's FailIfUnfinalized) fails with the fatal UnfinalizedDrop error,
`ImplicitCommit` applies all buffered removals and insertions to the
underlying map, and `ImplicitRollback` leaves it unchanged; after a commit
or a rollback the finalised flag makes destruction take no policy action
under any policy. -/
theorem drop_policy {K V : Type} [DecidableEq K] (w : HashWrap K V) :
    (w.finalised = false →
      HashWrap.dropRun .panicIfUnfinalised w = .error .unfinalizedDrop ∧
      HashWrap.dropRun .implicitCommit w = .ok w.commitInner ∧
      HashWrap.dropRun .implicitRollback w = .ok w.inner) ∧
    (∀ b, HashWrap.dropRun b w.commit = .ok w.commitInner ∧
      HashWrap.dropRun b w.rollback = .ok w.inner) := by
  constructor
  · intro hf
    refine ⟨?_, ?_, ?_⟩ <;> simp [HashWrap.dropRun, hf]
  · intro b
    constructor <;> simp [HashWrap.dropRun, HashWrap.commit, HashWrap.rollback]

/-- C3 witness: a concrete unfinalized wrapper under each policy, and a
committed wrapper whose destruction takes no policy action. -/
theorem drop_policy_witness :
    (HashWrap.dropRun .panicIfUnfinalised
        (⟨[(1, 2)], [(3, 4)], [0], false⟩ : HashWrap Nat Nat) =
      .error .unfinalizedDrop ∧
     HashWrap.dropRun .implicitCommit
        (⟨[(1, 2)], [(3, 4)], [0], false⟩ : HashWrap Nat Nat) =
      .ok (⟨[(1, 2)], [(3, 4)], [0], false⟩ : HashWrap Nat Nat).commitInner ∧
     HashWrap.dropRun .implicitRollback
        (⟨[(1, 2)], [(3, 4)], [0], false⟩ : HashWrap Nat Nat) =
      .ok [(1, 2)]) ∧
    HashWrap.dropRun .panicIfUnfinalised
        (⟨[(1, 2)], [(3, 4)], [0], false⟩ : HashWrap Nat Nat).commit =
      .ok (⟨[(1, 2)], [(3, 4)], [0], false⟩ : HashWrap Nat Nat).commitInner :=
  ⟨(drop_policy _).1 rfl,
   ((drop_policy (⟨[(1, 2)], [(3, 4)], [0], false⟩ : HashWrap Nat Nat)).2
      .panicIfUnfinalised).1⟩

/-- C4: `HashWrap::insert(k, v)` — always records `k→v` in added and leaves
the underlying map untouched; if `k` was in added it returns the old added
value; else if `k` was removed it clears the removal and returns nothing;
else it returns a clone of the underlying value when the underlying map has
`k` and nothing otherwise, leaving the removed set unchanged. -/
theorem insert_cases {K V : Type} [DecidableEq K]
    (w : HashWrap K V) (k : K) (v : V) :
    ((w.insert k v).2.inner = w.inner ∧
      lookup (w.insert k v).2.added k = some v) ∧
    (containsKeyL w.added k = true →
      (w.insert k v).1 = lookup w.added k ∧
      (w.insert k v).2.removed = w.removed) ∧
    (containsKeyL w.added k = false → memK w.removed k = true →
      (w.insert k v).1 = none ∧
      memK (w.insert k v).2.removed k = false) ∧
    (containsKeyL w.added k = false → memK w.removed k = false →
      (∀ v0, lookup w.inner k = some v0 → (w.insert k v).1 = some v0) ∧
      (lookup w.inner k = none → (w.insert k v).1 = none) ∧
      (w.insert k v).2.removed = w.removed) := by
  cases hca : containsKeyL w.added k with
  | true =>
    have hr : w.insert k v =
        (lookup w.added k, { w with added := hmInsert w.added k v }) := by
      simp [HashWrap.insert, hca]
    rw [hr]
    exact ⟨⟨rfl, lookup_hmInsert_self _ _ _⟩,
      fun _ => ⟨rfl, rfl⟩,
      fun hfalse _ => by simp [hca] at hfalse,
      fun hfalse _ => by simp [hca] at hfalse⟩
  | false =>
    cases hcr : memK w.removed k with
    | true =>
      have hr : w.insert k v = (lookup w.added k,
          { w with removed := eraseSet w.removed k,
                   added := hmInsert w.added k v }) := by
        simp [HashWrap.insert, hca, hcr]
      rw [hr]
      exact ⟨⟨rfl, lookup_hmInsert_self _ _ _⟩,
        fun htrue => by simp [hca] at htrue,
        fun _ _ => ⟨lookup_none_of_not_contains _ _ hca,
          memK_eraseSet_self _ _⟩,
        fun _ hfalse => by simp [hcr] at hfalse⟩
    | false =>
      cases hli : lookup w.inner k with
      | some v0 =>
        have hr : w.insert k v =
            (some v0, { w with added := hmInsert w.added k v }) := by
          simp [HashWrap.insert, hca, hcr, hli]
        rw [hr]
        refine ⟨⟨rfl, lookup_hmInsert_self _ _ _⟩,
          fun htrue => by simp [hca] at htrue,
          fun _ htrue => by simp [hcr] at htrue,
          fun _ _ => ⟨?_, ?_, rfl⟩⟩
        · intro v1 hv1
          exact hv1
        · intro hnone
          exact absurd hnone (by simp)
      | none =>
        have hr : w.insert k v =
            (none, { w with added := hmInsert w.added k v }) := by
          simp [HashWrap.insert, hca, hcr, hli]
        rw [hr]
        refine ⟨⟨rfl, lookup_hmInsert_self _ _ _⟩,
          fun htrue => by simp [hca] at htrue,
          fun _ htrue => by simp [hcr] at htrue,
          fun _ _ => ⟨?_, fun _ => rfl, rfl⟩⟩
        intro v1 hv1
        exact absurd hv1 (by simp)

/-- C4 witness: the three hypothesis-guarded branches at concrete inputs —
an added hit, a removed hit, and an underlying hit. -/
theorem insert_cases_witness :
    (((⟨[(1, 10)], [(2, 20)], [3], false⟩ : HashWrap Nat Nat).insert 2 99).1 =
        lookup [(2, 20)] 2 ∧
      ((⟨[(1, 10)], [(2, 20)], [3], false⟩ : HashWrap Nat Nat).insert 2 99).2.removed =
        [3]) ∧
    (((⟨[(1, 10)], [(2, 20)], [3], false⟩ : HashWrap Nat Nat).insert 3 99).1 =
        none ∧
      memK ((⟨[(1, 10)], [(2, 20)], [3], false⟩ : HashWrap Nat Nat).insert 3 99).2.removed 3 =
        false) ∧
    ((⟨[(1, 10)], [(2, 20)], [3], false⟩ : HashWrap Nat Nat).insert 1 99).1 =
      some 10 :=
  ⟨(insert_cases _ 2 99).2.1 (by decide),
   (insert_cases _ 3 99).2.2.1 (by decide) (by decide),
   ((insert_cases (⟨[(1, 10)], [(2, 20)], [3], false⟩ : HashWrap Nat Nat) 1 99).2.2.2
      (by decide) (by decide)).1 10 (by decide)⟩

/-- C5: indexed lookup of `k` returns the added value when `k` is in added;
fails with the fatal AbsentKeyLookup error when `k` is in removed; and
otherwise defers to the underlying map, failing exactly when `k` is absent
there too. -/
theorem index_cases {K V : Type} [DecidableEq K] (w : HashWrap K V) (k : K) :
    (∀ v, lookup w.added k = some v → w.indexAt k = .ok v) ∧
    (containsKeyL w.added k = false → memK w.removed k = true →
      w.indexAt k = .error .absentKeyLookup) ∧
    (containsKeyL w.added k = false → memK w.removed k = false →
      w.indexAt k = match lookup w.inner k with
        | some v => .ok v
        | none => .error .absentKeyLookup) := by
  refine ⟨?_, ?_, ?_⟩
  · intro v hv
    have hca : containsKeyL w.added k = true := by simp [containsKeyL, hv]
    simp [HashWrap.indexAt, hca, hv]
  · intro hca hcr
    simp [HashWrap.indexAt, hca, hcr]
  · intro hca hcr
    simp [HashWrap.indexAt, hca, hcr]

/-- C5 witness: added hit, removed key, and deferral to the underlying map
in both its outcomes, at concrete inputs. -/
theorem index_cases_witness :
    (⟨[(1, 10)], [(2, 20)], [3], false⟩ : HashWrap Nat Nat).indexAt 2 =
        .ok 20 ∧
    (⟨[(1, 10)], [(2, 20)], [3], false⟩ : HashWrap Nat Nat).indexAt 3 =
        .error .absentKeyLookup ∧
    (⟨[(1, 10)], [(2, 20)], [3], false⟩ : HashWrap Nat Nat).indexAt 1 =
        .ok 10 ∧
    (⟨[(1, 10)], [(2, 20)], [3], false⟩ : HashWrap Nat Nat).indexAt 7 =
        .error .absentKeyLookup :=
  ⟨(index_cases _ 2).1 20 (by decide),
   (index_cases _ 3).2.1 (by decide) (by decide),
   (index_cases (⟨[(1, 10)], [(2, 20)], [3], false⟩ : HashWrap Nat Nat) 1).2.2
      (by decide) (by decide),
   (index_cases (⟨[(1, 10)], [(2, 20)], [3], false⟩ : HashWrap Nat Nat) 7).2.2
      (by decide) (by decide)⟩

end ClaimsHash

section ClaimsLendingGen

/-- C6: totality.  On a `LendingWrap` over a quiescent library (no
outstanding loan — what the exclusive borrow taken at construction
guarantees, spec section 5), after any operation sequence, `insert` and
`lend` never fail: their one internal unwrap cannot fire, and absence is
encoded in the optional result.  `remove` — like `HashWrap`'s insert,
remove and get_mut — is a total function of the model by construction, so
only the two fatal kinds (indexed lookup, unfinalized drop) can fail. -/
theorem total_ops {K V : Type} [DecidableEq K] (lib : LendingLib K V)
    (hq : lib.onLoan = []) (ops : List (LOp K V)) (k : K) (v : V) :
    exceptOk ((applyLOps (LendingWrap.new lib) ops).insert k v) = true ∧
    exceptOk ((applyLOps (LendingWrap.new lib) ops).lend k) = true := by
  have h := lreach lib ops hq
  exact ⟨(lInsert_props _ k v h).1, (lLend_props _ k h).1⟩

/-- C6 witness: a concrete library, operation sequence and key. -/
theorem total_ops_witness :
    exceptOk ((applyLOps (LendingWrap.new ⟨[(1, 10)], []⟩)
        [.ins 2 20, .lend 1, .rem 1]).insert 1 5) = true ∧
    exceptOk ((applyLOps (LendingWrap.new (⟨[(1, 10)], []⟩ : LendingLib Nat Nat))
        [.ins 2 20, .lend 1, .rem 1]).lend 1) = true :=
  total_ops ⟨[(1, 10)], []⟩ rfl [.ins 2 20, .lend 1, .rem 1] 1 5

/-- C7: `LendingWrap::lend(k)` — when `k` is in added, delegates to the
added sub-collection (the loaned value is `added`'s entry and the net state
is unchanged once the loan is returned); when `k` is removed, returns
nothing; when the underlying library has `k`, its value is read and cloned
into added, the momentary borrow on the underlying library is released (its
loan set is exactly restored: `inner` is unchanged in the result), and the
lend is served from added — the promotion records `k→value` in the overlay;
otherwise returns nothing.  The loan-freeness hypotheses are the
between-operations invariant established by `lreach`. -/
theorem lend_cases {K V : Type} [DecidableEq K] (w : LendingWrap K V)
    (k : K) (hi : w.inner.onLoan = []) (ha : w.added.onLoan = []) :
    (∀ v0, lookup w.added.store k = some v0 → w.lend k = .ok (some v0, w)) ∧
    (containsKeyL w.added.store k = false → memK w.removed k = true →
      w.lend k = .ok (none, w)) ∧
    (∀ v0, containsKeyL w.added.store k = false → memK w.removed k = false →
      lookup w.inner.store k = some v0 →
      w.lend k = .ok (some v0,
        { inner := w.inner, added := ⟨hmInsert w.added.store k v0, []⟩,
          removed := w.removed })) ∧
    (containsKeyL w.added.store k = false → memK w.removed k = false →
      lookup w.inner.store k = none → w.lend k = .ok (none, w)) := by
  refine ⟨?_, lLend_eq_removed w k, ?_, lLend_eq_absent w k⟩
  · intro v0 h
    exact lLend_eq_added w k v0 ha h
  · intro v0 h1 h2 h3
    exact lLend_eq_promote w k v0 h1 h2 hi ha h3

/-- C7 witness: the four branches at concrete inputs. -/
theorem lend_cases_witness :
    (⟨⟨[(1, 10)], []⟩, ⟨[(2, 20)], []⟩, [3]⟩ : LendingWrap Nat Nat).lend 2 =
        .ok (some 20, ⟨⟨[(1, 10)], []⟩, ⟨[(2, 20)], []⟩, [3]⟩) ∧
    (⟨⟨[(1, 10)], []⟩, ⟨[(2, 20)], []⟩, [3]⟩ : LendingWrap Nat Nat).lend 3 =
        .ok (none, ⟨⟨[(1, 10)], []⟩, ⟨[(2, 20)], []⟩, [3]⟩) ∧
    (⟨⟨[(1, 10)], []⟩, ⟨[(2, 20)], []⟩, [3]⟩ : LendingWrap Nat Nat).lend 1 =
        .ok (some 10,
          { inner := ⟨[(1, 10)], []⟩,
            added := ⟨hmInsert [(2, 20)] 1 10, []⟩, removed := [3] }) ∧
    (⟨⟨[(1, 10)], []⟩, ⟨[(2, 20)], []⟩, [3]⟩ : LendingWrap Nat Nat).lend 7 =
        .ok (none, ⟨⟨[(1, 10)], []⟩, ⟨[(2, 20)], []⟩, [3]⟩) :=
  ⟨(lend_cases _ 2 rfl rfl).1 20 (by decide),
   (lend_cases _ 3 rfl rfl).2.1 (by decide) (by decide),
   (lend_cases _ 1 rfl rfl).2.2.1 10 (by decide) (by decide) (by decide),
   (lend_cases _ 7 rfl rfl).2.2.2 (by decide) (by decide) (by decide)⟩

/-- C8: after any sequence of operations on a fresh `HashWrap`, and after
any sequence of operations on a fresh `LendingWrap` over a quiescent
library, no key is a member of both the added overlay and the removed set
(states after each operation are exactly the states after each prefix of
the sequence). -/
theorem added_removed_disjoint {K V : Type} [DecidableEq K]
    (u : List (K × V)) (hops : List (HOp K V))
    (lib : LendingLib K V) (hq : lib.onLoan = []) (lops : List (LOp K V))
    (k : K) :
    (containsKeyL (applyHOps (HashWrap.new u) hops).added k &&
      memK (applyHOps (HashWrap.new u) hops).removed k) = false ∧
    (containsKeyL (applyLOps (LendingWrap.new lib) lops).added.store k &&
      memK (applyLOps (LendingWrap.new lib) lops).removed k) = false := by
  constructor
  · have h := hreach u hops
    cases hc : containsKeyL (applyHOps (HashWrap.new u) hops).added k with
    | false => simp
    | true => simp [h.2.2.1 k hc]
  · have h := lreach lib lops hq
    cases hc : containsKeyL (applyLOps (LendingWrap.new lib) lops).added.store k with
    | false => simp
    | true => simp [h.2.2 k hc]

/-- C8 witness: concrete sequences that put the key through both overlays. -/
theorem added_removed_disjoint_witness :
    (containsKeyL (applyHOps (HashWrap.new [(1, 10)]) [.ins 1 20, .rem 1]).added 1 &&
      memK (applyHOps (HashWrap.new [(1, 10)]) [.ins 1 20, .rem 1]).removed 1) = false ∧
    (containsKeyL (applyLOps (LendingWrap.new (⟨[(1, 10)], []⟩ : LendingLib Nat Nat))
        [.lend 1, .rem 1]).added.store 1 &&
      memK (applyLOps (LendingWrap.new (⟨[(1, 10)], []⟩ : LendingLib Nat Nat))
        [.lend 1, .rem 1]).removed 1) = false :=
  added_removed_disjoint [(1, 10)] [.ins 1 20, .rem 1] ⟨[(1, 10)], []⟩ rfl
    [.lend 1, .rem 1] 1

/-- C9: `GenericWrap` copy-on-write laziness.  With no shadow, read access
returns the original, `replace` returns nothing and leaves the original
untouched, and a mutable access performs the single clone of the original
into the shadow slot; with a shadow present, a mutable access reuses it
unchanged (no re-clone); mutable accesses never modify the original; and
repeated mutable access is idempotent. -/
theorem cow_lazy {T : Type} (w : GenericWrap T) (f : T → T) :
    (w.copy = none →
      w.read = w.inner ∧ w.replace = (none, w.inner) ∧
      w.derefMut = ⟨w.inner, some w.inner⟩) ∧
    (∀ c, w.copy = some c → w.derefMut = w) ∧
    w.derefMut.inner = w.inner ∧ (w.mutateWith f).inner = w.inner ∧
    w.derefMut.derefMut = w.derefMut := by
  refine ⟨?_, ?_, ?_, ?_, ?_⟩
  · intro h
    refine ⟨?_, ?_, ?_⟩ <;>
      simp [GenericWrap.read, GenericWrap.replace, GenericWrap.derefMut, h]
  · intro c hc
    simp [GenericWrap.derefMut, hc]
  · cases hv : w.copy <;> simp [GenericWrap.derefMut, hv]
  · cases hv : w.copy <;>
      simp [GenericWrap.mutateWith, GenericWrap.derefMut, hv]
  · cases hv : w.copy <;> simp [GenericWrap.derefMut, hv]

/-- C9 witness: a never-mutated wrapper and an already-shadowed wrapper at
concrete values. -/
theorem cow_lazy_witness :
    ((⟨3, none⟩ : GenericWrap Nat).read = 3 ∧
      (⟨3, none⟩ : GenericWrap Nat).replace = (none, 3) ∧
      (⟨3, none⟩ : GenericWrap Nat).derefMut = ⟨3, some 3⟩) ∧
    (⟨3, some 5⟩ : GenericWrap Nat).derefMut = ⟨3, some 5⟩ :=
  ⟨(cow_lazy ⟨3, none⟩ Nat.succ).1 rfl,
   (cow_lazy ⟨3, some 5⟩ Nat.succ).2.1 5 rfl⟩

/-- C10: provided the underlying library can lend every key it reports as
contained (no outstanding loan on it), the `.unwrap()` of the underlying
lend inside `LendingWrap::insert` and `LendingWrap::lend` cannot fail,
whatever the wrapper state. -/
theorem unwrap_unreachable {K V : Type} [DecidableEq K]
    (w : LendingWrap K V) (k : K) (v : V)
    (hp : ∀ k2, containsKeyL w.inner.store k2 = true →
      (w.inner.lend k2).isSome = true) :
    exceptOk (w.insert k v) = true ∧ exceptOk (w.lend k) = true := by
  constructor
  · unfold LendingWrap.insert
    cases hca : containsKeyL w.added.store k with
    | true => simp [exceptOk]
    | false =>
      cases hcr : memK w.removed k with
      | true => simp [exceptOk]
      | false =>
        cases hcin : containsKeyL w.inner.store k with
        | false => simp [exceptOk]
        | true =>
          obtain ⟨pr, hpr⟩ := Option.isSome_iff_exists.mp (hp k hcin)
          obtain ⟨item, inner1⟩ := pr
          simp [hpr, exceptOk]
  · unfold LendingWrap.lend
    cases hca : containsKeyL w.added.store k with
    | true =>
      cases h2 : w.added.lend k with
      | some pr =>
        obtain ⟨v2, a2⟩ := pr
        simp [h2, exceptOk]
      | none => simp [h2, exceptOk]
    | false =>
      cases hcr : memK w.removed k with
      | true => simp [exceptOk]
      | false =>
        cases hcin : containsKeyL w.inner.store k with
        | false => simp [exceptOk]
        | true =>
          obtain ⟨pr, hpr⟩ := Option.isSome_iff_exists.mp (hp k hcin)
          obtain ⟨item, inner1⟩ := pr
          cases h2 : ((w.added.insertL k item).2).lend k with
          | some pr2 =>
            obtain ⟨v2, a2⟩ := pr2
            simp [hpr, h2, exceptOk]
          | none => simp [hpr, h2, exceptOk]

/-- C10 witness: a concrete loan-free library containing one key. -/
theorem unwrap_unreachable_witness :
    exceptOk ((⟨⟨[(1, 10)], []⟩, ⟨[], []⟩, []⟩ :
        LendingWrap Nat Nat).insert 1 7) = true ∧
    exceptOk ((⟨⟨[(1, 10)], []⟩, ⟨[], []⟩, []⟩ :
        LendingWrap Nat Nat).lend 1) = true :=
  unwrap_unreachable ⟨⟨[(1, 10)], []⟩, ⟨[], []⟩, []⟩ 1 7 (by
    intro k2 hk2
    by_cases h : (1 : Nat) = k2
    · simp [LendingLib.lend, lookup, h, memK]
    · simp [containsKeyL, lookup, h] at hk2)

end ClaimsLendingGen
